/-
  Verification of the extraction and reconciliation engine of the
  ocr_to_table repository (Unigalactix/ocr_to_table).

  The Python source is shallowly embedded: pure helper functions become
  Lean functions on `String` / `List Char` / `ℚ`; Python `None` becomes
  `Option`; a Python `TypeError` raised by iterating `None` becomes
  `Except.error`.  Python `float` confidences are modelled as rationals,
  which is faithful for the ordering comparisons the code performs.
  Python `str.lower` / `str.strip` are modelled for the ASCII range
  (`pyLower`, `pyStrip`), which covers every string the theorems touch.
-/
import Mathlib

/-- Model of Python `str.lower()` (ASCII case folding). -/
def pyLower (s : String) : String := ⟨s.data.map Char.toLower⟩

/-- Model of Python `str.strip()`: drop leading and trailing whitespace. -/
def pyStrip (s : String) : String :=
  ⟨((s.data.dropWhile Char.isWhitespace).reverse.dropWhile Char.isWhitespace).reverse⟩

/-- Model of Python's `needle in hay` substring test. -/
def hasSub (needle : List Char) : List Char → Bool
  | [] => needle.isEmpty
  | c :: t => needle.isPrefixOf (c :: t) || hasSub needle t

namespace FileUtils

/-- Inner `while` loop of `generate_excel_column_names` in
`src/utils/file_utils.py`: prepend `chr(65 + temp % 26)`, set
`temp //= 26`, stop when `temp == 0`, else `temp -= 1` and repeat. -/
def colLoop (temp : Nat) (acc : List Char) : List Char :=
  if temp / 26 = 0 then Char.ofNat (65 + temp % 26) :: acc
  else colLoop (temp / 26 - 1) (Char.ofNat (65 + temp % 26) :: acc)
termination_by temp
decreasing_by omega

/-- `generate_excel_column_names` from `src/utils/file_utils.py`. -/
def generate_excel_column_names (num_columns : Nat) : List String :=
  (List.range num_columns).map (fun i => ⟨colLoop i []⟩)

end FileUtils

namespace App

/-- Inner `while temp >= 0` loop of `generate_excel_column_names` in
`src/app.py`: prepend `chr(65 + temp % 26)`, set `temp = temp // 26 - 1`,
break when `temp < 0`.  `temp` is an `Int` because it ends at `-1`. -/
def colLoop (temp : Int) (acc : List Char) : List Char :=
  if temp < 0 then acc
  else colLoop (temp / 26 - 1) (Char.ofNat (65 + temp % 26).toNat :: acc)
termination_by (temp + 1).toNat
decreasing_by omega

/-- `generate_excel_column_names` from `src/app.py`. -/
def generate_excel_column_names (num_columns : Nat) : List String :=
  (List.range num_columns).map (fun i => ⟨colLoop (Int.ofNat i) []⟩)

end App

/-- Reference sequence: bijective base-26 name of column `n`
(`A, B, ..., Z, AA, AB, ...`), written from the spec's description of the
Excel-style labeling, used to characterise both source generators. -/
def excelName (n : Nat) : List Char :=
  if n < 26 then [Char.ofNat (65 + n)]
  else excelName (n / 26 - 1) ++ [Char.ofNat (65 + n % 26)]
termination_by n
decreasing_by omega

/-- Bijective base-26 valuation, left inverse of `excelName` up to `+1`. -/
def excelVal (cs : List Char) : Nat :=
  cs.foldl (fun a c => a * 26 + (c.toNat - 64)) 0

/-- A layout table as extracted in `analyze_document_layout`
(`src/app.py`): a list of rows, all of width `ncols` (pandas
`len(df.columns)`). -/
structure LTable where
  ncols : Nat
  rows : List (List String)
deriving DecidableEq

/-- Table-merging step of `analyze_document_layout` (`src/app.py`
lines 169-180): if every table has the same number of columns as the
first, `pd.concat(layout_tables, ignore_index=True)`; otherwise the
tables are left separate (`merged_table` stays `None`). -/
def merge_layout_tables (layout_tables : List LTable) : Option LTable :=
  match layout_tables with
  | [] => none
  | t0 :: _ =>
    if layout_tables.all (fun t => t.ncols = t0.ncols) then
      some ⟨t0.ncols, (layout_tables.map (·.rows)).flatten⟩
    else none

/-- Raw untyped cell grid handed back by the external tabular parser
(`pd.read_csv(file_obj, header=None, dtype=str)`), which the spec treats
as an opaque collaborator: a declared column count and the data rows. -/
structure RawFrame where
  ncols : Nat
  rows : List (List String)
deriving DecidableEq

/-- A frame after the reader's relabeling: column names, 1-based row
index, and the unchanged rows. -/
structure LabeledFrame where
  columns : List String
  index : List Nat
  rows : List (List String)
deriving DecidableEq

/-- CSV branch of `read_csv_or_excel_file` in `src/utils/file_utils.py`:
label the parsed grid's columns with `generate_excel_column_names` and
re-index rows from 1 (`df.index = range(1, len(df) + 1)`). -/
def read_csv_branch (raw : RawFrame) : LabeledFrame :=
  { columns := FileUtils.generate_excel_column_names raw.ncols
    index := List.range' 1 raw.rows.length
    rows := raw.rows }

namespace CurrencyUtils

/-- `BUDGET_KEYWORDS` from `src/utils/currency_utils.py`. -/
def BUDGET_KEYWORDS : List String :=
  ["amount", "budget", "cost", "price", "total", "expense", "payment",
   "fee", "charge", "rate", "value", "sum", "balance", "due", "revenue",
   "income", "expenditure", "allocation", "fund", "capital", "investment",
   "profit", "loss", "tax", "discount", "refund", "salary", "wage"]

/-- The currency symbol class `[\$€£¥₹]` of `CURRENCY_PATTERNS`. -/
def currencySyms : List Char := ['$', '€', '£', '¥', '₹']

/-- The class `[\d,]` (digit or comma). -/
def isDigitComma (c : Char) : Bool := c.isDigit || c = ','

/-- Greedy `\s*`. -/
def wsDrop (l : List Char) : List Char := l.dropWhile Char.isWhitespace

/-- Try a matcher at every start position (Python `re.search`). -/
def searchFrom (f : List Char → Bool) : List Char → Bool
  | [] => false
  | c :: rest => f (c :: rest) || searchFrom f rest

/-- Pattern `[\$€£¥₹]\s*[\d,]+\.?\d*` anchored at the start: a currency
symbol, optional whitespace, then at least one digit-or-comma (the
remaining `\.?\d*` always matches the empty string). -/
def pat1From : List Char → Bool
  | [] => false
  | c :: rest =>
    (c ∈ currencySyms : Bool) &&
      (match wsDrop rest with
       | d :: _ => isDigitComma d
       | [] => false)

/-- `\s*` followed by a currency symbol. -/
def symAfterWs (l : List Char) : Bool :=
  match wsDrop l with
  | c :: _ => (c ∈ currencySyms : Bool)
  | [] => false

/-- The suffix `\.?\d*\s*[\$€£¥₹]` of pattern `[\d,]+\.?\d*\s*[\$€£¥₹]`
after the `[\d,]+` group. -/
def pat2Tail (l : List Char) : Bool :=
  symAfterWs (l.dropWhile Char.isDigit) ||
  (match l with
   | '.' :: rest => symAfterWs (rest.dropWhile Char.isDigit)
   | _ => false)

/-- Pattern `[\d,]+\.?\d*\s*[\$€£¥₹]` anchored at the start, with the
`[\d,]+` group stopping after any positive number of characters. -/
def pat2From : List Char → Bool
  | [] => false
  | c :: rest => isDigitComma c && (pat2Tail rest || pat2From rest)

/-- Python `\w`: alphanumeric or underscore. -/
def isWordChar (c : Char) : Bool := c.isAlphanum || c = '_'

/-- `\b` right after a word character: end of input or a non-word char. -/
def bAfter : List Char → Bool
  | [] => true
  | c :: _ => !isWordChar c

/-- The suffix `(?:\.\d{2})?\b` of the general number pattern, entered
right after a digit. -/
def pat3End (l : List Char) : Bool :=
  bAfter l ||
  (match l with
   | '.' :: a :: b :: rest => a.isDigit && b.isDigit && bAfter rest
   | _ => false)

/-- The suffix `(?:,\d{3})*(?:\.\d{2})?\b` of the general number
pattern, entered right after a digit. -/
def pat3Groups (l : List Char) : Bool :=
  pat3End l ||
  (match l with
   | ',' :: a :: b :: c :: rest =>
     a.isDigit && b.isDigit && c.isDigit && pat3Groups rest
   | _ => false)
termination_by l.length

/-- Pattern `\b\d{1,3}(?:,\d{3})*(?:\.\d{2})?\b` anchored at the start
(the leading `\b` is checked by the caller); tries 1, 2 or 3 leading
digits. -/
def pat3From : List Char → Bool
  | [] => false
  | d1 :: r1 =>
    d1.isDigit &&
      (pat3Groups r1 ||
       (match r1 with
        | d2 :: r2 =>
          d2.isDigit &&
            (pat3Groups r2 ||
             (match r2 with
              | d3 :: r3 => d3.isDigit && pat3Groups r3
              | [] => false))
        | [] => false))

/-- `re.search` for the general number pattern, threading the previous
character so the leading `\b` can be decided. -/
def pat3Search : Option Char → List Char → Bool
  | _, [] => false
  | prev, c :: rest =>
    ((match prev with
      | none => true
      | some p => !isWordChar p) && pat3From (c :: rest)) ||
    pat3Search (some c) rest

/-- The currency codes of `CURRENCY_PATTERNS`, lowercased because the
source lowercases the text and compiles with `re.IGNORECASE`. -/
def currencyCodes : List (List Char) :=
  ["usd".data, "eur".data, "gbp".data, "inr".data, "aud".data, "cad".data]

/-- Pattern `(?:USD|EUR|GBP|INR|AUD|CAD)\s*[\d,]+\.?\d*` anchored at the
start. -/
def pat4From (l : List Char) : Bool :=
  currencyCodes.any (fun code =>
    code.isPrefixOf l &&
      (match wsDrop (l.drop code.length) with
       | d :: _ => isDigitComma d
       | [] => false))

/-- `\s*` followed by a currency code. -/
def codeAfterWs (l : List Char) : Bool :=
  currencyCodes.any (fun code => code.isPrefixOf (wsDrop l))

/-- The suffix `\.?\d*\s*(?:USD|EUR|GBP|INR|AUD|CAD)` after the
`[\d,]+` group. -/
def pat5Tail (l : List Char) : Bool :=
  codeAfterWs (l.dropWhile Char.isDigit) ||
  (match l with
   | '.' :: rest => codeAfterWs (rest.dropWhile Char.isDigit)
   | _ => false)

/-- Pattern `[\d,]+\.?\d*\s*(?:USD|EUR|GBP|INR|AUD|CAD)` anchored at the
start. -/
def pat5From : List Char → Bool
  | [] => false
  | c :: rest => isDigitComma c && (pat5Tail rest || pat5From rest)

/-- `contains_currency` from `src/utils/currency_utils.py`: strip and
lowercase the text, then `re.search` each of `CURRENCY_PATTERNS`. -/
def contains_currency (text : String) : Bool :=
  let t := (pyLower (pyStrip text)).data
  searchFrom pat1From t || searchFrom pat2From t || pat3Search none t ||
  searchFrom pat4From t || searchFrom pat5From t

/-- `contains_budget_keywords` from `src/utils/currency_utils.py`:
strip and lowercase the text, then test each keyword for substring
containment. -/
def contains_budget_keywords (text : String) : Bool :=
  let t := (pyLower (pyStrip text)).data
  BUDGET_KEYWORDS.any (fun k => hasSub k.data t)

/-- `is_budget_related_content` from `src/utils/currency_utils.py`. -/
def is_budget_related_content (text : String) : Bool :=
  contains_currency text || contains_budget_keywords text

end CurrencyUtils

namespace App

/-- A key-value pair collected by the layout pass (`analyze_document_layout`
in `src/app.py`): dict with keys `Key`, `Value`, `Confidence`. -/
structure KVPair where
  key : String
  value : String
  confidence : ℚ
deriving DecidableEq

/-- A named field collected by the invoice pass (`analyze_document_invoice`
in `src/app.py`): dict with keys `Field`, `Value`, `Confidence`, `Source`. -/
structure InvoiceField where
  field : String
  value : String
  confidence : ℚ
deriving DecidableEq

/-- An amount record built by `extract_amount_related_data` in
`src/app.py`: dict with keys `Label`, `Value`, `Confidence`, `Source`,
`Type` (`rtype` here, since `Type` is reserved in Lean). -/
structure AmountRecord where
  label : String
  value : String
  confidence : ℚ
  source : String
  rtype : String
deriving DecidableEq

/-- `amount_keywords` from `extract_amount_related_data` in `src/app.py`. -/
def amount_keywords : List String :=
  ["amount", "total", "sum", "cost", "price", "budget", "expense", "fee",
   "charge", "payment", "due", "balance", "subtotal", "tax", "discount",
   "invoice", "bill", "receipt", "value", "money", "currency", "dollar",
   "euro", "pound", "yen", "credit", "debit", "net", "gross"]

/-- `any(keyword in key_lower for keyword in amount_keywords)` applied to
the lowercased key/field name. -/
def key_matches_amount (s : String) : Bool :=
  amount_keywords.any (fun kw => hasSub kw.data (pyLower s).data)

/-- First alternative `[\$€£¥₹]\s*\d+(?:,\d{3})*(?:\.\d{2})?` of the
monetary regex in `extract_amount_related_data`, anchored at the start:
a currency symbol, optional whitespace, then at least one digit. -/
def money1From : List Char → Bool
  | [] => false
  | c :: rest =>
    (c ∈ CurrencyUtils.currencySyms : Bool) &&
      (match CurrencyUtils.wsDrop rest with
       | d :: _ => d.isDigit
       | [] => false)

/-- The suffix `(?:\.\d{2})?\s*[\$€£¥₹]` of the second alternative. -/
def money2End (l : List Char) : Bool :=
  CurrencyUtils.symAfterWs l ||
  (match l with
   | '.' :: a :: b :: rest =>
     a.isDigit && b.isDigit && CurrencyUtils.symAfterWs rest
   | _ => false)

/-- The suffix `(?:,\d{3})*(?:\.\d{2})?\s*[\$€£¥₹]` of the second
alternative, entered right after a digit. -/
def money2Tail (l : List Char) : Bool :=
  money2End l ||
  (match l with
   | ',' :: a :: b :: c :: rest =>
     a.isDigit && b.isDigit && c.isDigit && money2Tail rest
   | _ => false)
termination_by l.length

/-- Second alternative `\d+(?:,\d{3})*(?:\.\d{2})?\s*[\$€£¥₹]` anchored
at the start, with `\d+` stopping after any positive number of digits. -/
def money2From : List Char → Bool
  | [] => false
  | c :: rest => c.isDigit && (money2Tail rest || money2From rest)

/-- Third alternative `\d+\.\d{2}` anchored at the start. -/
def money3From : List Char → Bool
  | [] => false
  | c :: rest =>
    c.isDigit &&
      ((match rest with
        | '.' :: a :: b :: _ => a.isDigit && b.isDigit
        | _ => false) ||
       money3From rest)

/-- `re.search` of the monetary regex of `extract_amount_related_data`
against the raw value (the source does not lowercase or strip here). -/
def is_monetary_value (value : String) : Bool :=
  CurrencyUtils.searchFrom money1From value.data ||
  CurrencyUtils.searchFrom money2From value.data ||
  CurrencyUtils.searchFrom money3From value.data

/-- Records emitted for one layout key-value pair by
`extract_amount_related_data`: one under `Type = 'Key-Value Pair'` when
the key matches a keyword, and one under `Type = 'Monetary Value'` when
the value matches the monetary regex. -/
def kv_records (kv : KVPair) : List AmountRecord :=
  (if key_matches_amount kv.key then
     [⟨kv.key, kv.value, kv.confidence, "Layout Analysis", "Key-Value Pair"⟩]
   else []) ++
  (if is_monetary_value kv.value then
     [⟨kv.key, kv.value, kv.confidence, "Layout Analysis", "Monetary Value"⟩]
   else [])

/-- Records emitted for one invoice field by
`extract_amount_related_data`. -/
def field_records (f : InvoiceField) : List AmountRecord :=
  (if key_matches_amount f.field then
     [⟨f.field, f.value, f.confidence, "Invoice Model", "Invoice Field"⟩]
   else []) ++
  (if is_monetary_value f.value then
     [⟨f.field, f.value, f.confidence, "Invoice Model", "Monetary Value"⟩]
   else [])

/-- `extract_amount_related_data` from `src/app.py`: process the layout
key-value pairs in order, then the invoice fields in order. -/
def extract_amount_related_data (layout_kv_pairs : List KVPair)
    (invoice_fields : List InvoiceField) : List AmountRecord :=
  (layout_kv_pairs.map kv_records).flatten ++
  (invoice_fields.map field_records).flatten

/-- The normalized duplicate-detection key of `create_final_budget_table`:
`(item['Label'].lower().strip(), str(item['Value']).lower().strip())`. -/
def normKey (r : AmountRecord) : String × String :=
  (pyStrip (pyLower r.label), pyStrip (pyLower r.value))

/-- Python `list.remove(x)`: delete the first element equal to `x`. -/
def pyRemove : List AmountRecord → AmountRecord → List AmountRecord
  | [], _ => []
  | y :: ys, x => if y = x then ys else y :: pyRemove ys x

/-- The deduplication loop of `create_final_budget_table` (`src/app.py`
lines 345-365), with the `seen_combinations` set and the
`deduplicated_data` list as explicit accumulators; on a duplicate key the
kept record is replaced (removed and re-appended) only when the new
record's confidence is strictly higher. -/
def dedupGo : List (String × String) → List AmountRecord →
    List AmountRecord → List AmountRecord
  | _, data, [] => data
  | seen, data, item :: rest =>
    if normKey item ∈ seen then
      match data.find? (fun x => decide (normKey x = normKey item)) with
      | some existing =>
        if existing.confidence < item.confidence then
          dedupGo seen (pyRemove data existing ++ [item]) rest
        else dedupGo seen data rest
      | none => dedupGo seen data rest
    else dedupGo (seen ++ [normKey item]) (data ++ [item]) rest

/-- The deduplication step of `create_final_budget_table`. -/
def deduplicate (amount_data : List AmountRecord) : List AmountRecord :=
  dedupGo [] [] amount_data

/-- Stable descending insertion: the new record goes after every record
of confidence greater than or equal to its own. -/
def insertDesc (item : AmountRecord) : List AmountRecord → List AmountRecord
  | [] => [item]
  | x :: xs =>
    if x.confidence < item.confidence then item :: x :: xs
    else x :: insertDesc item xs

/-- The ranking step `deduplicated_data.sort(key=lambda x:
x['Confidence'], reverse=True)` of `create_final_budget_table`.  Python's
`list.sort` is a stable sort; it is modelled by stable insertion. -/
def sortByConfidenceDesc (l : List AmountRecord) : List AmountRecord :=
  l.foldl (fun acc r => insertDesc r acc) []

/-- `create_final_budget_table`'s record pipeline (`src/app.py`):
deduplicate, then sort by confidence descending. -/
def create_final_budget_table (amount_data : List AmountRecord) :
    List AmountRecord :=
  sortByConfidenceDesc (deduplicate amount_data)

/-- Modelled from the spec: the ordered high-priority keyword list of the
final-entry selection (§4.5 Step 3).  The selection code is not among the
source files provided under `src/`. -/
def priority_keywords : List String :=
  ["grand_total", "final_total", "overall_total", "total_amount",
   "net_amount", "invoice_total", "bill_total", "total", "amount",
   "balance", "due"]

/-- Modelled from the spec: the record's label, lowercased with spaces
replaced by underscores. -/
def normalize_label (label : String) : List Char :=
  (pyLower label).data.map (fun c => if c = ' ' then '_' else c)

/-- Modelled from the spec: `score = list_length - position` of the first
keyword of `priority_keywords` occurring as a substring of the normalized
label, else 0. -/
def priority_score (label : String) : Nat :=
  match priority_keywords.findIdx? (fun k => hasSub k.data (normalize_label label)) with
  | some i => priority_keywords.length - i
  | none => 0

/-- Modelled from the spec: the running-best scan of the final-entry
selection, replacing the best only on a strictly greater score. -/
def selectGo : Option AmountRecord → Nat → List AmountRecord →
    Option AmountRecord
  | best, _, [] => best
  | best, bestScore, r :: rest =>
    if bestScore < priority_score r.label then
      selectGo (some r) (priority_score r.label) rest
    else selectGo best bestScore rest

/-- Modelled from the spec: the FinalBudgetEntry selection (§4.5 Step 3);
returns `none` when no record ever matches a keyword. -/
def select_final_entry (records : List AmountRecord) : Option AmountRecord :=
  selectGo none 0 records

/-- Python truthiness of a possibly-`None` list. -/
def pyTruthy {α : Type} : Option (List α) → Bool
  | none => false
  | some l => !l.isEmpty

/-- Iterating a possibly-`None` list: Python raises `TypeError` on
`None`. -/
def iterOrCrash {α : Type} : Option (List α) → Except String (List α)
  | none => Except.error "TypeError: NoneType object is not iterable"
  | some l => Except.ok l

/-- Successful result of `analyze_document_layout` (`src/app.py`): the
extracted tables, the optional merged table and the key-value pairs.  On
a service failure the function returns `(None, None, None)`, modelled as
`none` for the whole triple. -/
structure LayoutResult where
  tables : List LTable
  merged : Option LTable
  kv_pairs : List KVPair

/-- The module-level analysis dispatch of `src/app.py` (lines 458-472):
run both passes, and if `layout_tables or invoice_fields` is truthy call
`extract_amount_related_data(key_value_pairs, invoice_fields)` — which
iterates both arguments, raising `TypeError` when a failed pass left one
of them `None`; otherwise produce no final budget table. -/
def analysis_dispatch (layout : Option LayoutResult)
    (invoice : Option (List InvoiceField × List LTable)) :
    Except String (Option (List AmountRecord)) :=
  let layout_tables : Option (List LTable) := layout.map (·.tables)
  let key_value_pairs : Option (List KVPair) := layout.map (·.kv_pairs)
  let invoice_fields : Option (List InvoiceField) := invoice.map (·.1)
  if pyTruthy layout_tables || pyTruthy invoice_fields then
    match iterOrCrash key_value_pairs with
    | Except.error e => Except.error e
    | Except.ok kvs =>
      match iterOrCrash invoice_fields with
      | Except.error e => Except.error e
      | Except.ok fs =>
        Except.ok (some (extract_amount_related_data kvs fs))
  else Except.ok none

end App

namespace TableExtractor

/-- A source cell of a layout table (`table.cells` in
`extract_tables_from_document`, `src/table_extractor.py`). -/
structure Cell where
  row_index : Nat
  column_index : Nat
  content : String
deriving DecidableEq

/-- `max([cell.row_index for cell in table.cells]) + 1` (the source
computes it on a non-empty cell list). -/
def max_row (cells : List Cell) : Nat :=
  (cells.map (·.row_index)).foldl max 0 + 1

/-- `max([cell.column_index for cell in table.cells]) + 1`. -/
def max_col (cells : List Cell) : Nat :=
  (cells.map (·.column_index)).foldl max 0 + 1

/-- One write `table_grid[cell.row_index][cell.column_index] =
cell.content.strip()`. -/
def writeCell (g : List (List String)) (c : Cell) : List (List String) :=
  g.set c.row_index ((g.getD c.row_index []).set c.column_index (pyStrip c.content))

/-- The grid construction of `extract_tables_from_document`
(`src/table_extractor.py` lines 47-58): allocate a `max_row × max_col`
grid of empty strings, then write every cell's stripped content. -/
def table_grid (cells : List Cell) : List (List String) :=
  cells.foldl writeCell
    (List.replicate (max_row cells) (List.replicate (max_col cells) ""))

/-- Grid lookup used to state properties of `table_grid`. -/
def cellAt (g : List (List String)) (r c : Nat) : String :=
  (g.getD r []).getD c ""

end TableExtractor

/-! ## Excel-style column names: both generators compute `excelName` -/

theorem char65_toNat : ∀ m, m < 26 → (Char.ofNat (65 + m)).toNat = 65 + m := by
  decide

theorem fu_colLoop_eq_excelName (n : Nat) :
    ∀ acc, FileUtils.colLoop n acc = excelName n ++ acc := by
  induction n using Nat.strong_induction_on with
  | _ n ih =>
    intro acc
    rw [FileUtils.colLoop, excelName]
    by_cases h : n / 26 = 0
    · have hn : n < 26 := by omega
      have hm : n % 26 = n := Nat.mod_eq_of_lt hn
      simp [h, hn, hm]
    · have hn : ¬ n < 26 := by omega
      simp only [h, hn, if_false]
      rw [ih (n / 26 - 1) (by omega)]
      simp

theorem app_colLoop_eq_fu (n : Nat) :
    ∀ acc, App.colLoop (n : Int) acc = FileUtils.colLoop n acc := by
  induction n using Nat.strong_induction_on with
  | _ n ih =>
    intro acc
    rw [App.colLoop, FileUtils.colLoop]
    have h0 : ¬ ((n : Int) < 0) := by omega
    have hchar : ((65 : Int) + (n : Int) % 26).toNat = 65 + n % 26 := by omega
    simp only [h0, if_false, hchar]
    by_cases h : n / 26 = 0
    · have hneg : ((n : Int) / 26 - 1) < 0 := by omega
      rw [App.colLoop]
      simp [h, hneg]
    · have heq : ((n : Int) / 26 - 1) = ((n / 26 - 1 : Nat) : Int) := by omega
      rw [heq, ih (n / 26 - 1) (by omega)]
      simp [h]

theorem excelVal_excelName (n : Nat) : excelVal (excelName n) = n + 1 := by
  induction n using Nat.strong_induction_on with
  | _ n ih =>
    rw [excelName]
    by_cases h : n < 26
    · have hc := char65_toNat n h
      simp [h, excelVal, hc]
      omega
    · have hrec := ih (n / 26 - 1) (by omega)
      have hc := char65_toNat (n % 26) (by omega)
      simp only [h, if_false]
      unfold excelVal at hrec ⊢
      rw [List.foldl_append, hrec]
      simp [hc]
      omega

theorem excelName_injective : Function.Injective excelName := by
  intro a b h
  have h2 := congrArg excelVal h
  rw [excelVal_excelName, excelVal_excelName] at h2
  omega

theorem excelString_injective :
    Function.Injective (fun n => (⟨excelName n⟩ : String)) := by
  intro a b h
  injection h with h2
  exact excelName_injective h2

theorem fu_gen_eq_excelName (n : Nat) :
    FileUtils.generate_excel_column_names n =
      (List.range n).map (fun i => ⟨excelName i⟩) := by
  unfold FileUtils.generate_excel_column_names
  apply List.map_congr_left
  intro i _
  rw [fu_colLoop_eq_excelName]
  simp

/-- C10: the two Excel-style column-name generators (in
`src/utils/file_utils.py` and `src/app.py`) are extensionally equal; both
return the first `n` names of the base-26 sequence `A, B, ..., Z, AA,
AB, ...`, and the names are pairwise distinct. -/
theorem claim_c10 :
    (∀ n, App.generate_excel_column_names n = FileUtils.generate_excel_column_names n) ∧
    (∀ n, FileUtils.generate_excel_column_names n =
      (List.range n).map (fun i => ⟨excelName i⟩)) ∧
    (∀ n, (FileUtils.generate_excel_column_names n).Nodup) ∧
    FileUtils.generate_excel_column_names 28 =
      ["A", "B", "C", "D", "E", "F", "G", "H", "I", "J", "K", "L", "M",
       "N", "O", "P", "Q", "R", "S", "T", "U", "V", "W", "X", "Y", "Z",
       "AA", "AB"] := by
  refine ⟨?_, fu_gen_eq_excelName, ?_, ?_⟩
  · intro n
    unfold App.generate_excel_column_names FileUtils.generate_excel_column_names
    apply List.map_congr_left
    intro i _
    rw [show Int.ofNat i = (i : Int) from rfl, app_colLoop_eq_fu]
  · intro n
    rw [fu_gen_eq_excelName]
    exact (List.nodup_range n).map excelString_injective
  · unfold FileUtils.generate_excel_column_names
    norm_num [List.range_succ]
    refine ⟨?_, ?_, ?_, ?_, ?_, ?_, ?_, ?_, ?_, ?_, ?_, ?_, ?_, ?_, ?_,
      ?_, ?_, ?_, ?_, ?_, ?_, ?_, ?_, ?_, ?_, ?_, ?_, ?_⟩ <;>
      (rw [fu_colLoop_eq_excelName]) <;> simp [excelName]

/-- C9: the CSV path of the Tabular File Reader returns, for a parsed
frame of 5 columns and 0 data rows, a table with columns `A..E` and zero
data rows; in general column `N` gets the `N`-th base-26 name and rows
are indexed `1..row_count`. -/
theorem claim_c9 :
    read_csv_branch ⟨5, []⟩ = ⟨["A", "B", "C", "D", "E"], [], []⟩ ∧
    (∀ raw : RawFrame,
      (read_csv_branch raw).rows = raw.rows ∧
      (read_csv_branch raw).index = List.range' 1 raw.rows.length ∧
      (∀ N, N < raw.ncols →
        (read_csv_branch raw).columns.getD N "" = ⟨excelName N⟩)) := by
  constructor
  · have hc : FileUtils.generate_excel_column_names 5 = ["A", "B", "C", "D", "E"] := by
      unfold FileUtils.generate_excel_column_names
      norm_num [List.range_succ]
      refine ⟨?_, ?_, ?_, ?_, ?_⟩ <;>
        (rw [fu_colLoop_eq_excelName]) <;> simp [excelName]
    simp [read_csv_branch, hc, List.range']
  · intro raw
    refine ⟨rfl, rfl, ?_⟩
    intro N hN
    show (read_csv_branch raw).columns.getD N "" = _
    unfold read_csv_branch
    rw [fu_gen_eq_excelName]
    rw [List.getD_eq_getElem?_getD, List.getElem?_map, List.getElem?_range hN]
    rfl

theorem claim_c9_witness :
    3 < (5 : Nat) ∧ (read_csv_branch ⟨5, []⟩).columns.getD 3 "" = ⟨excelName 3⟩ :=
  ⟨by norm_num, (claim_c9.2 ⟨5, []⟩).2.2 3 (by norm_num)⟩

/-- C7: if every extracted layout table has the column count of the
first, the merger concatenates all rows in order (row count = sum of the
input row counts); if any table differs in column count, no merge is
performed. -/
theorem claim_c7 (t0 : LTable) (rest : List LTable) :
    ((∀ t ∈ t0 :: rest, t.ncols = t0.ncols) →
      merge_layout_tables (t0 :: rest) =
        some ⟨t0.ncols, ((t0 :: rest).map (·.rows)).flatten⟩ ∧
      (((t0 :: rest).map (·.rows)).flatten).length =
        ((t0 :: rest).map (fun t => t.rows.length)).sum) ∧
    ((∃ t ∈ t0 :: rest, t.ncols ≠ t0.ncols) →
      merge_layout_tables (t0 :: rest) = none) := by
  constructor
  · intro hall
    constructor
    · have hb : (t0 :: rest).all (fun t => t.ncols = t0.ncols) = true := by
        rw [List.all_eq_true]
        intro x hx
        exact decide_eq_true (hall x hx)
      simp [merge_layout_tables, hb]
    · rw [List.length_flatten, List.map_map]
      rfl
  · rintro ⟨t, ht, hne⟩
    cases hb : (t0 :: rest).all (fun t => t.ncols = t0.ncols) with
    | true => exact absurd (of_decide_eq_true (List.all_eq_true.mp hb t ht)) hne
    | false => simp [merge_layout_tables, hb]

theorem claim_c7_witness :
    merge_layout_tables
      [⟨3, [["a", "b", "c"]]⟩, ⟨3, [["d", "e", "f"], ["g", "h", "i"]]⟩, ⟨3, []⟩] =
      some ⟨3, [["a", "b", "c"], ["d", "e", "f"], ["g", "h", "i"]]⟩ ∧
    merge_layout_tables [⟨3, []⟩, ⟨4, []⟩, ⟨3, []⟩] = none := by
  constructor
  · have h := (claim_c7 ⟨3, [["a", "b", "c"]]⟩
      [⟨3, [["d", "e", "f"], ["g", "h", "i"]]⟩, ⟨3, []⟩]).1 (by decide)
    exact h.1
  · exact (claim_c7 ⟨3, []⟩ [⟨4, []⟩, ⟨3, []⟩]).2 (by decide)

/-- C6: `is_budget_related_content` is the disjunction of
`contains_currency` and `contains_budget_keywords`; keyword matching is
case-insensitive substring containment (so "Subtotal" matches "total");
`is_budget_related_content "Total: $1,234.56"` is true and
`is_budget_related_content "New York"` is false. -/
theorem claim_c6 :
    (∀ t, CurrencyUtils.is_budget_related_content t =
      (CurrencyUtils.contains_currency t ||
       CurrencyUtils.contains_budget_keywords t)) ∧
    CurrencyUtils.contains_budget_keywords "Subtotal" = true ∧
    CurrencyUtils.is_budget_related_content "Total: $1,234.56" = true ∧
    CurrencyUtils.is_budget_related_content "New York" = false :=
  ⟨fun _ => rfl, by decide, by decide, by decide⟩

/-- C2 (evidence for the code bug): when exactly one analysis pass fails
(its result is `None`) while the other pass makes the guard
`layout_tables or invoice_fields` truthy, the module-level dispatch of
`src/app.py` raises `TypeError` instead of completing with the surviving
pass's records; when both passes fail it returns no final table without
raising; when both passes succeed it never raises. -/
theorem claim_c2_dispatch :
    App.analysis_dispatch none
      (some ([⟨"InvoiceTotal", "100.00", mkRat 9 10⟩], [])) =
      Except.error "TypeError: NoneType object is not iterable" ∧
    App.analysis_dispatch (some ⟨[⟨2, [["Item", "Price"]]⟩], none, []⟩) none =
      Except.error "TypeError: NoneType object is not iterable" ∧
    App.analysis_dispatch none none = Except.ok none ∧
    (∀ lay : App.LayoutResult, ∀ inv : List App.InvoiceField × List LTable,
      App.analysis_dispatch (some lay) (some inv) =
        if App.pyTruthy (some lay.tables) || App.pyTruthy (some inv.1) then
          Except.ok (some (App.extract_amount_related_data lay.kv_pairs inv.1))
        else Except.ok none) := by
  refine ⟨rfl, rfl, rfl, ?_⟩
  intro lay inv
  unfold App.analysis_dispatch
  by_cases h : App.pyTruthy (some lay.tables) || App.pyTruthy (some inv.1)
  · simp [h, App.iterOrCrash]
  · simp [h]

/-! ## Ranking: stable descending sort by confidence -/

theorem insertDesc_perm (item : App.AmountRecord) (l : List App.AmountRecord) :
    (App.insertDesc item l).Perm (item :: l) := by
  induction l with
  | nil => exact List.Perm.refl _
  | cons x xs ih =>
    rw [App.insertDesc]
    by_cases h : x.confidence < item.confidence
    · rw [if_pos h]
    · rw [if_neg h]
      exact (ih.cons x).trans (List.Perm.swap item x xs)

theorem insertDesc_sorted (item : App.AmountRecord) (l : List App.AmountRecord)
    (hl : l.Pairwise (fun a b => b.confidence ≤ a.confidence)) :
    (App.insertDesc item l).Pairwise (fun a b => b.confidence ≤ a.confidence) := by
  induction l with
  | nil => simp [App.insertDesc]
  | cons x xs ih =>
    rw [List.pairwise_cons] at hl
    obtain ⟨hx, hxs⟩ := hl
    rw [App.insertDesc]
    by_cases h : x.confidence < item.confidence
    · rw [if_pos h]
      refine List.Pairwise.cons ?_ (List.Pairwise.cons hx hxs)
      intro y hy
      rcases List.mem_cons.mp hy with rfl | hy'
      · exact le_of_lt h
      · exact le_trans (hx y hy') (le_of_lt h)
    · rw [if_neg h]
      refine List.Pairwise.cons ?_ (ih hxs)
      intro y hy
      rcases List.mem_cons.mp ((insertDesc_perm item xs).mem_iff.mp hy) with rfl | hy'
      · exact not_lt.mp h
      · exact hx y hy'

theorem insertDesc_filter (item : App.AmountRecord) (c : ℚ)
    (l : List App.AmountRecord)
    (hl : l.Pairwise (fun a b => b.confidence ≤ a.confidence)) :
    (App.insertDesc item l).filter (fun r => decide (r.confidence = c)) =
      if item.confidence = c then
        l.filter (fun r => decide (r.confidence = c)) ++ [item]
      else l.filter (fun r => decide (r.confidence = c)) := by
  induction l with
  | nil =>
    by_cases h : item.confidence = c <;> simp [App.insertDesc, List.filter, h]
  | cons x xs ih =>
    rw [List.pairwise_cons] at hl
    obtain ⟨hx, hxs⟩ := hl
    rw [App.insertDesc]
    by_cases h : x.confidence < item.confidence
    · rw [if_pos h]
      by_cases hc : item.confidence = c
      · have hnone : ∀ y ∈ x :: xs, ¬ (y.confidence = c) := by
          intro y hy
          rcases List.mem_cons.mp hy with rfl | hy'
          · intro hyc
            rw [hyc, hc] at h
            exact lt_irrefl c h
          · intro hyc
            have hlt := lt_of_le_of_lt (hx y hy') h
            rw [hyc, hc] at hlt
            exact lt_irrefl c hlt
        have hxne : ¬ (x.confidence = c) := hnone x (List.mem_cons_self x xs)
        have hxsf : xs.filter (fun r => decide (r.confidence = c)) = [] := by
          rw [List.filter_eq_nil_iff]
          intro a ha
          simpa using hnone a (List.mem_cons_of_mem x ha)
        rw [if_pos hc]
        simp [List.filter_cons, hc, hxne, hxsf]
      · rw [if_neg hc]
        simp [List.filter_cons, hc]
    · rw [if_neg h]
      by_cases hxc : x.confidence = c <;> by_cases hc : item.confidence = c <;>
        simp [List.filter_cons, hxc, hc, ih hxs]

theorem sortGo_props : ∀ (l acc : List App.AmountRecord),
    acc.Pairwise (fun a b => b.confidence ≤ a.confidence) →
    ((l.foldl (fun a r => App.insertDesc r a) acc).Pairwise
        (fun a b => b.confidence ≤ a.confidence) ∧
      (l.foldl (fun a r => App.insertDesc r a) acc).Perm (acc ++ l) ∧
      (∀ c : ℚ,
        (l.foldl (fun a r => App.insertDesc r a) acc).filter
            (fun r => decide (r.confidence = c)) =
          acc.filter (fun r => decide (r.confidence = c)) ++
            l.filter (fun r => decide (r.confidence = c)))) := by
  intro l
  induction l with
  | nil =>
    intro acc hacc
    exact ⟨hacc, by simp, fun c => by simp⟩
  | cons x xs ih =>
    intro acc hacc
    have h1 := insertDesc_sorted x acc hacc
    obtain ⟨s1, s2, s3⟩ := ih (App.insertDesc x acc) h1
    refine ⟨s1, ?_, ?_⟩
    · refine s2.trans ?_
      refine ((insertDesc_perm x acc).append_right xs).trans ?_
      exact List.perm_middle.symm
    · intro c
      simp only [List.foldl_cons]
      rw [s3 c, insertDesc_filter x c acc hacc]
      by_cases hc : x.confidence = c
      · rw [if_pos hc]
        simp [List.filter_cons, hc]
      · rw [if_neg hc]
        simp [List.filter_cons, hc]

/-- C4: the ranking step is a stable descending sort by confidence: the
output is a permutation of the input, pairwise sorted by `confidence`
descending, and records of any fixed confidence keep their relative
input order. -/
theorem claim_c4 (l : List App.AmountRecord) :
    (App.sortByConfidenceDesc l).Perm l ∧
    (App.sortByConfidenceDesc l).Pairwise
      (fun a b => b.confidence ≤ a.confidence) ∧
    (∀ c : ℚ, (App.sortByConfidenceDesc l).filter
        (fun r => decide (r.confidence = c)) =
      l.filter (fun r => decide (r.confidence = c))) := by
  obtain ⟨h1, h2, h3⟩ := sortGo_props l [] (by simp)
  exact ⟨by simpa using h2, h1, fun c => by simpa using h3 c⟩

/-! ## Deduplication: one record per normalized key -/

theorem pyRemove_sublist (l : List App.AmountRecord) (x : App.AmountRecord) :
    (App.pyRemove l x).Sublist l := by
  induction l with
  | nil => simp [App.pyRemove]
  | cons y ys ih =>
    rw [App.pyRemove]
    by_cases h : y = x
    · rw [if_pos h]
      exact List.sublist_cons_self y ys
    · rw [if_neg h]
      exact List.Sublist.cons₂ y ih

theorem pyRemove_perm (x : App.AmountRecord) (l : List App.AmountRecord)
    (hx : x ∈ l) : l.Perm (x :: App.pyRemove l x) := by
  induction l with
  | nil => cases hx
  | cons y ys ih =>
    rw [App.pyRemove]
    by_cases h : y = x
    · rw [if_pos h, h]
    · rw [if_neg h]
      have hx' : x ∈ ys := by
        rcases List.mem_cons.mp hx with h2 | h2
        · exact absurd h2.symm h
        · exact h2
      exact ((ih hx').cons y).trans (List.Perm.swap x y (App.pyRemove ys x))

theorem pyRemove_not_mem (l : List App.AmountRecord) (x : App.AmountRecord)
    (hl : l.Nodup) : x ∉ App.pyRemove l x := by
  induction l with
  | nil => simp [App.pyRemove]
  | cons y ys ih =>
    rw [List.nodup_cons] at hl
    rw [App.pyRemove]
    by_cases h : y = x
    · rw [if_pos h]
      rw [h] at hl
      exact hl.1
    · rw [if_neg h]
      intro hmem
      rcases List.mem_cons.mp hmem with h2 | h2
      · exact h h2.symm
      · exact ih hl.2 h2

theorem dedupGo_cons_new (seen : List (String × String))
    (data : List App.AmountRecord) (item : App.AmountRecord)
    (rest : List App.AmountRecord) (h : App.normKey item ∉ seen) :
    App.dedupGo seen data (item :: rest) =
      App.dedupGo (seen ++ [App.normKey item]) (data ++ [item]) rest := by
  rw [App.dedupGo, if_neg h]

theorem dedupGo_cons_replace (seen : List (String × String))
    (data : List App.AmountRecord) (item existing : App.AmountRecord)
    (rest : List App.AmountRecord)
    (h : App.normKey item ∈ seen)
    (hf : data.find? (fun x => decide (App.normKey x = App.normKey item)) = some existing)
    (hc : existing.confidence < item.confidence) :
    App.dedupGo seen data (item :: rest) =
      App.dedupGo seen (App.pyRemove data existing ++ [item]) rest := by
  rw [App.dedupGo, if_pos h, hf]
  show (if existing.confidence < item.confidence then
      App.dedupGo seen (App.pyRemove data existing ++ [item]) rest
    else App.dedupGo seen data rest) = _
  rw [if_pos hc]

theorem dedupGo_cons_keep (seen : List (String × String))
    (data : List App.AmountRecord) (item existing : App.AmountRecord)
    (rest : List App.AmountRecord)
    (h : App.normKey item ∈ seen)
    (hf : data.find? (fun x => decide (App.normKey x = App.normKey item)) = some existing)
    (hc : ¬ existing.confidence < item.confidence) :
    App.dedupGo seen data (item :: rest) = App.dedupGo seen data rest := by
  rw [App.dedupGo, if_pos h, hf]
  show (if existing.confidence < item.confidence then
      App.dedupGo seen (App.pyRemove data existing ++ [item]) rest
    else App.dedupGo seen data rest) = _
  rw [if_neg hc]

theorem dedupGo_inv :
    ∀ (rest : List App.AmountRecord) (seen : List (String × String))
      (data p : List App.AmountRecord),
      (data.map App.normKey).Nodup →
      (∀ k, k ∈ seen ↔ k ∈ data.map App.normKey) →
      (∀ r ∈ data, r ∈ p ∧
        (∀ s ∈ p, App.normKey s = App.normKey r → s.confidence ≤ r.confidence) ∧
        p.find? (fun s => decide (App.normKey s = App.normKey r ∧
          s.confidence = r.confidence)) = some r) →
      (∀ k, k ∈ data.map App.normKey ↔ k ∈ p.map App.normKey) →
      ((App.dedupGo seen data rest).map App.normKey).Nodup ∧
        (∀ r ∈ App.dedupGo seen data rest, r ∈ p ++ rest ∧
          (∀ s ∈ p ++ rest, App.normKey s = App.normKey r →
            s.confidence ≤ r.confidence) ∧
          (p ++ rest).find? (fun s => decide (App.normKey s = App.normKey r ∧
            s.confidence = r.confidence)) = some r) ∧
        (∀ k, k ∈ (App.dedupGo seen data rest).map App.normKey ↔
          k ∈ (p ++ rest).map App.normKey) := by
  intro rest
  induction rest with
  | nil =>
    intro seen data p h1 h2 h3 h4
    rw [show App.dedupGo seen data [] = data from rfl, List.append_nil]
    exact ⟨h1, h3, h4⟩
  | cons item rest ih =>
    intro seen data p h1 h2 h3 h4
    by_cases hseen : App.normKey item ∈ seen
    · cases hfind : data.find? (fun x => decide (App.normKey x = App.normKey item)) with
      | none =>
        exfalso
        obtain ⟨r, hr, hkr⟩ := List.mem_map.mp ((h2 _).mp hseen)
        have hno := List.find?_eq_none.mp hfind r hr
        simp [hkr] at hno
      | some existing =>
        have hmemx : existing ∈ data := List.mem_of_find?_eq_some hfind
        have hkey : App.normKey existing = App.normKey item := by
          have hp := List.find?_some hfind
          simpa using hp
        have huniq : ∀ r ∈ data, App.normKey r = App.normKey item → r = existing := by
          intro r hr hkr
          exact List.inj_on_of_nodup_map h1 hr hmemx (by rw [hkr, hkey])
        have hKdata : App.normKey item ∈ data.map App.normKey := by
          rw [← hkey]
          exact List.mem_map_of_mem App.normKey hmemx
        by_cases hconf : existing.confidence < item.confidence
        · rw [dedupGo_cons_replace seen data item existing rest hseen hfind hconf,
            List.append_cons p item rest]
          have hdnodup : data.Nodup := List.Nodup.of_map App.normKey h1
          have hperm : data.Perm (existing :: App.pyRemove data existing) :=
            pyRemove_perm existing data hmemx
          have hkperm := hperm.map App.normKey
          have hknodup2 : (App.normKey existing ::
              (App.pyRemove data existing).map App.normKey).Nodup :=
            (hkperm.nodup_iff).mp h1
          have hKnotin : App.normKey existing ∉
              (App.pyRemove data existing).map App.normKey :=
            (List.nodup_cons.mp hknodup2).1
          have hkrnodup := (List.nodup_cons.mp hknodup2).2
          have hexnot : existing ∉ App.pyRemove data existing :=
            pyRemove_not_mem data existing hdnodup
          have hsub := pyRemove_sublist data existing
          refine ih seen (App.pyRemove data existing ++ [item]) (p ++ [item])
            ?_ ?_ ?_ ?_
          · rw [List.map_append, List.nodup_append]
            refine ⟨hkrnodup, List.nodup_singleton _, ?_⟩
            intro a ha
            simp only [List.map_cons, List.map_nil, List.mem_singleton]
            intro heq
            rw [heq] at ha
            rw [hkey] at hKnotin
            exact hKnotin ha
          · intro k
            rw [List.map_append, List.mem_append, h2 k]
            constructor
            · intro hk
              rcases List.mem_cons.mp ((hkperm.mem_iff).mp hk) with h5 | h5
              · right
                simp only [List.map_cons, List.map_nil, List.mem_singleton]
                rw [h5]
                exact hkey
              · left
                exact h5
            · rintro (h5 | h5)
              · exact (hkperm.mem_iff).mpr (List.mem_cons_of_mem _ h5)
              · simp only [List.map_cons, List.map_nil, List.mem_singleton] at h5
                rw [h5, ← hkey]
                exact List.mem_map_of_mem App.normKey hmemx
          · intro r hr
            rcases List.mem_append.mp hr with hr1 | hr2
            · obtain ⟨hrp, hmax, hfindr⟩ := h3 r (hsub.subset hr1)
              refine ⟨List.mem_append.mpr (Or.inl hrp), ?_, ?_⟩
              · intro s hs hks
                rcases List.mem_append.mp hs with hs1 | hs2
                · exact hmax s hs1 hks
                · rw [List.mem_singleton] at hs2
                  subst hs2
                  exfalso
                  have hre : r = existing := huniq r (hsub.subset hr1) (by rw [← hks])
                  rw [hre] at hr1
                  exact hexnot hr1
              · rw [List.find?_append, hfindr]
                exact Option.or_some
            · rw [List.mem_singleton] at hr2
              subst hr2
              obtain ⟨hexp, hexmax, hexfind⟩ := h3 existing hmemx
              refine ⟨List.mem_append.mpr (Or.inr (List.mem_singleton.mpr rfl)),
                ?_, ?_⟩
              · intro s hs hks
                rcases List.mem_append.mp hs with hs1 | hs2
                · have hks2 : App.normKey s = App.normKey existing := by
                    rw [hks, hkey]
                  exact le_of_lt (lt_of_le_of_lt (hexmax s hs1 hks2) hconf)
                · rw [List.mem_singleton] at hs2
                  subst hs2
                  exact le_refl _
              · rw [List.find?_append]
                have hpn : p.find? (fun s => decide (App.normKey s = App.normKey r ∧
                    s.confidence = r.confidence)) = none := by
                  rw [List.find?_eq_none]
                  intro s hs
                  simp only [decide_eq_true_eq, not_and]
                  intro hks hceq
                  have hks2 : App.normKey s = App.normKey existing := by
                    rw [hks, hkey]
                  have hle := hexmax s hs hks2
                  rw [hceq] at hle
                  exact absurd hconf (not_lt.mpr hle)
                rw [hpn]
                simp [List.find?]
          · intro k
            rw [List.map_append, List.mem_append, List.map_append, List.mem_append]
            constructor
            · rintro (h5 | h5)
              · have hk1 : k ∈ data.map App.normKey :=
                  (hkperm.mem_iff).mpr (List.mem_cons_of_mem _ h5)
                exact Or.inl ((h4 k).mp hk1)
              · exact Or.inr h5
            · rintro (h5 | h5)
              · have hk1 := (h4 k).mpr h5
                rcases List.mem_cons.mp ((hkperm.mem_iff).mp hk1) with h6 | h6
                · right
                  simp only [List.map_cons, List.map_nil, List.mem_singleton]
                  rw [h6]
                  exact hkey
                · left
                  exact h6
              · exact Or.inr h5
        · rw [dedupGo_cons_keep seen data item existing rest hseen hfind hconf,
            List.append_cons p item rest]
          refine ih seen data (p ++ [item]) h1 h2 ?_ ?_
          · intro r hr
            obtain ⟨hrp, hmax, hfindr⟩ := h3 r hr
            refine ⟨List.mem_append.mpr (Or.inl hrp), ?_, ?_⟩
            · intro s hs hks
              rcases List.mem_append.mp hs with hs1 | hs2
              · exact hmax s hs1 hks
              · rw [List.mem_singleton] at hs2
                subst hs2
                have hre : r = existing := huniq r hr (by rw [← hks])
                rw [hre]
                exact not_lt.mp hconf
            · rw [List.find?_append, hfindr]
              exact Option.or_some
          · intro k
            rw [List.map_append, List.mem_append]
            constructor
            · intro h5
              exact Or.inl ((h4 k).mp h5)
            · rintro (h5 | h5)
              · exact (h4 k).mpr h5
              · simp only [List.map_cons, List.map_nil, List.mem_singleton] at h5
                rw [h5]
                exact hKdata
    · rw [dedupGo_cons_new seen data item rest hseen, List.append_cons p item rest]
      have hKnotdata : App.normKey item ∉ data.map App.normKey :=
        fun hh => hseen ((h2 _).mpr hh)
      have hKnotp : App.normKey item ∉ p.map App.normKey :=
        fun hh => hKnotdata ((h4 _).mpr hh)
      refine ih (seen ++ [App.normKey item]) (data ++ [item]) (p ++ [item])
        ?_ ?_ ?_ ?_
      · rw [List.map_append, List.nodup_append]
        refine ⟨h1, List.nodup_singleton _, ?_⟩
        intro a ha
        simp only [List.map_cons, List.map_nil, List.mem_singleton]
        intro heq
        rw [heq] at ha
        exact hKnotdata ha
      · intro k
        rw [List.mem_append, List.map_append, List.mem_append, h2 k]
        simp [List.mem_singleton]
      · intro r hr
        rcases List.mem_append.mp hr with hr1 | hr2
        · obtain ⟨hrp, hmax, hfindr⟩ := h3 r hr1
          refine ⟨List.mem_append.mpr (Or.inl hrp), ?_, ?_⟩
          · intro s hs hks
            rcases List.mem_append.mp hs with hs1 | hs2
            · exact hmax s hs1 hks
            · rw [List.mem_singleton] at hs2
              subst hs2
              exfalso
              apply hKnotdata
              rw [hks]
              exact List.mem_map_of_mem App.normKey hr1
          · rw [List.find?_append, hfindr]
            exact Option.or_some
        · rw [List.mem_singleton] at hr2
          subst hr2
          refine ⟨List.mem_append.mpr (Or.inr (List.mem_singleton.mpr rfl)),
            ?_, ?_⟩
          · intro s hs hks
            rcases List.mem_append.mp hs with hs1 | hs2
            · exfalso
              apply hKnotp
              rw [← hks]
              exact List.mem_map_of_mem App.normKey hs1
            · rw [List.mem_singleton] at hs2
              subst hs2
              exact le_refl _
          · rw [List.find?_append]
            have hpn : p.find? (fun s => decide (App.normKey s = App.normKey r ∧
                s.confidence = r.confidence)) = none := by
              rw [List.find?_eq_none]
              intro s hs
              simp only [decide_eq_true_eq, not_and]
              intro hks
              exfalso
              apply hKnotp
              rw [← hks]
              exact List.mem_map_of_mem App.normKey hs
            rw [hpn]
            simp [List.find?]
      · intro k
        rw [List.map_append, List.mem_append, List.map_append, List.mem_append]
        constructor
        · rintro (h5 | h5)
          · exact Or.inl ((h4 k).mp h5)
          · exact Or.inr h5
        · rintro (h5 | h5)
          · exact Or.inl ((h4 k).mpr h5)
          · exact Or.inr h5

theorem dedup_props (l : List App.AmountRecord) :
    ((App.deduplicate l).map App.normKey).Nodup ∧
    (∀ r ∈ App.deduplicate l, r ∈ l ∧
      (∀ s ∈ l, App.normKey s = App.normKey r → s.confidence ≤ r.confidence) ∧
      l.find? (fun s => decide (App.normKey s = App.normKey r ∧
        s.confidence = r.confidence)) = some r) ∧
    (∀ k, k ∈ (App.deduplicate l).map App.normKey ↔ k ∈ l.map App.normKey) := by
  have h := dedupGo_inv l [] [] [] (by simp) (by simp) (by simp) (by simp)
  simpa [App.deduplicate] using h

theorem dedupGo_all_new : ∀ (l : List App.AmountRecord)
    (seen : List (String × String)) (data : List App.AmountRecord),
    (∀ r ∈ l, App.normKey r ∉ seen) → (l.map App.normKey).Nodup →
    App.dedupGo seen data l = data ++ l := by
  intro l
  induction l with
  | nil =>
    intro seen data _ _
    rw [show App.dedupGo seen data [] = data from rfl]
    simp
  | cons item rest ih =>
    intro seen data hns hnd
    have hnd2 := hnd
    rw [List.map_cons, List.nodup_cons] at hnd2
    have hx1 : ∀ r ∈ rest, App.normKey r ∉ seen ++ [App.normKey item] := by
      intro r hr
      rw [List.mem_append]
      rintro (h5 | h5)
      · exact hns r (List.mem_cons_of_mem item hr) h5
      · rw [List.mem_singleton] at h5
        exact hnd2.1 (h5 ▸ List.mem_map_of_mem App.normKey hr)
    rw [dedupGo_cons_new seen data item rest (hns item (List.mem_cons_self item rest)),
      ih (seen ++ [App.normKey item]) (data ++ [item]) hx1 hnd2.2]
    simp

/-- C3: deduplication keeps exactly one record per normalized key (the
output keys are pairwise distinct and cover exactly the input keys); the
record kept for a key is an input record of maximal confidence for that
key, and on confidence ties the first-seen record is kept (it is the
first input record with that key and confidence); on the spec's
two-record example exactly the 0.95-confidence record survives. -/
theorem claim_c3 :
    (∀ l : List App.AmountRecord,
      ((App.deduplicate l).map App.normKey).Nodup ∧
      (∀ k, k ∈ (App.deduplicate l).map App.normKey ↔ k ∈ l.map App.normKey) ∧
      (∀ r ∈ App.deduplicate l, r ∈ l ∧
        (∀ s ∈ l, App.normKey s = App.normKey r → s.confidence ≤ r.confidence) ∧
        l.find? (fun s => decide (App.normKey s = App.normKey r ∧
          s.confidence = r.confidence)) = some r)) ∧
    App.deduplicate
      [⟨"Total", "100", mkRat 9 10, "Layout Analysis", "Key-Value Pair"⟩,
       ⟨"total", "100", mkRat 95 100, "Invoice Model", "Invoice Field"⟩] =
      [⟨"total", "100", mkRat 95 100, "Invoice Model", "Invoice Field"⟩] := by
  constructor
  · intro l
    obtain ⟨a, b, c⟩ := dedup_props l
    exact ⟨a, c, b⟩
  · decide

theorem claim_c3_witness :
    (⟨"total", "100", mkRat 95 100, "Invoice Model", "Invoice Field"⟩ :
        App.AmountRecord) ∈
      [(⟨"Total", "100", mkRat 9 10, "Layout Analysis", "Key-Value Pair"⟩ :
          App.AmountRecord),
        ⟨"total", "100", mkRat 95 100, "Invoice Model", "Invoice Field"⟩] ∧
    (∀ s ∈ [(⟨"Total", "100", mkRat 9 10, "Layout Analysis", "Key-Value Pair"⟩ :
          App.AmountRecord),
        ⟨"total", "100", mkRat 95 100, "Invoice Model", "Invoice Field"⟩],
      App.normKey s = App.normKey
        ⟨"total", "100", mkRat 95 100, "Invoice Model", "Invoice Field"⟩ →
      s.confidence ≤ mkRat 95 100) := by
  have h := (claim_c3.1
    [⟨"Total", "100", mkRat 9 10, "Layout Analysis", "Key-Value Pair"⟩,
     ⟨"total", "100", mkRat 95 100, "Invoice Model", "Invoice Field"⟩]).2.2
    ⟨"total", "100", mkRat 95 100, "Invoice Model", "Invoice Field"⟩ (by decide)
  exact ⟨h.1, h.2.1⟩

/-- C8: deduplication is idempotent — applied to its own output it
returns that output unchanged. -/
theorem claim_c8 (l : List App.AmountRecord) :
    App.deduplicate (App.deduplicate l) = App.deduplicate l := by
  have h1 := (dedup_props l).1
  show App.dedupGo [] [] (App.deduplicate l) = App.deduplicate l
  rw [dedupGo_all_new (App.deduplicate l) [] [] (by simp) h1]
  simp

/-! ## Final-entry selection (spec-modelled) -/

theorem selectGo_all_zero : ∀ (l : List App.AmountRecord),
    (∀ r ∈ l, App.priority_score r.label = 0) → App.selectGo none 0 l = none := by
  intro l
  induction l with
  | nil => intro _; rfl
  | cons r rest ih =>
    intro h
    have hz := h r (List.mem_cons_self r rest)
    rw [App.selectGo, hz, if_neg (lt_irrefl 0)]
    exact ih (fun s hs => h s (List.mem_cons_of_mem r hs))

theorem selectGo_inv :
    ∀ (rest : List App.AmountRecord) (best : Option App.AmountRecord)
      (bs : Nat) (p : List App.AmountRecord),
      (best = none → bs = 0 ∧ ∀ r ∈ p, App.priority_score r.label = 0) →
      (∀ b, best = some b → bs = App.priority_score b.label ∧ b ∈ p ∧ 0 < bs ∧
        (∀ s ∈ p, App.priority_score s.label ≤ bs) ∧
        p.find? (fun s => decide (App.priority_score s.label = bs)) = some b) →
      ((App.selectGo best bs rest = none →
          ∀ r ∈ p ++ rest, App.priority_score r.label = 0) ∧
        (∀ b, App.selectGo best bs rest = some b → b ∈ p ++ rest ∧
          0 < App.priority_score b.label ∧
          (∀ s ∈ p ++ rest,
            App.priority_score s.label ≤ App.priority_score b.label) ∧
          (p ++ rest).find? (fun s =>
            decide (App.priority_score s.label = App.priority_score b.label)) =
            some b)) := by
  intro rest
  induction rest with
  | nil =>
    intro best bs p hn hsome
    rw [show App.selectGo best bs [] = best from rfl, List.append_nil]
    constructor
    · intro hbn
      exact (hn hbn).2
    · intro b hbs
      obtain ⟨he, hmem, hpos, hmax, hfind⟩ := hsome b hbs
      rw [he] at hpos hmax hfind
      exact ⟨hmem, hpos, hmax, hfind⟩
  | cons r rest ih =>
    intro best bs p hn hsome
    have hps : ∀ s ∈ p, App.priority_score s.label ≤ bs := by
      cases best with
      | none =>
        obtain ⟨hbs0, hall⟩ := hn rfl
        intro s hs
        rw [hall s hs, hbs0]
      | some b => exact (hsome b rfl).2.2.2.1
    rw [App.selectGo, List.append_cons p r rest]
    by_cases hlt : bs < App.priority_score r.label
    · rw [if_pos hlt]
      refine ih (some r) (App.priority_score r.label) (p ++ [r]) ?_ ?_
      · intro hc
        cases hc
      · intro b hb
        have hbr : b = r := by
          injection hb with hb2
          exact hb2.symm
        subst hbr
        refine ⟨rfl, List.mem_append.mpr (Or.inr (List.mem_singleton.mpr rfl)),
          by omega, ?_, ?_⟩
        · intro s hs
          rcases List.mem_append.mp hs with hs1 | hs2
          · exact le_of_lt (lt_of_le_of_lt (hps s hs1) hlt)
          · rw [List.mem_singleton] at hs2
            subst hs2
            exact le_refl _
        · rw [List.find?_append]
          have hpn : p.find? (fun s => decide (App.priority_score s.label =
              App.priority_score b.label)) = none := by
            rw [List.find?_eq_none]
            intro s hs
            simp only [decide_eq_true_eq]
            intro heq
            exact absurd (lt_of_le_of_lt (hps s hs) hlt) (heq ▸ lt_irrefl _)
          rw [hpn]
          simp [List.find?]
    · rw [if_neg hlt]
      refine ih best bs (p ++ [r]) ?_ ?_
      · intro hbn
        obtain ⟨hbs0, hall⟩ := hn hbn
        refine ⟨hbs0, ?_⟩
        intro s hs
        rcases List.mem_append.mp hs with hs1 | hs2
        · exact hall s hs1
        · rw [List.mem_singleton] at hs2
          subst hs2
          have := not_lt.mp hlt
          omega
      · intro b hb
        obtain ⟨he, hmem, hpos, hmax, hfind⟩ := hsome b hb
        refine ⟨he, List.mem_append.mpr (Or.inl hmem), hpos, ?_, ?_⟩
        · intro s hs
          rcases List.mem_append.mp hs with hs1 | hs2
          · exact hmax s hs1
          · rw [List.mem_singleton] at hs2
            subst hs2
            exact not_lt.mp hlt
        · rw [List.find?_append, hfind]
          exact Option.or_some

/-- C1 (modelled from the spec, the selection code being absent from the
provided sources): the final-entry selection scores each record by
keyword-list position and returns the first record attaining the
strictly-greatest running score; it returns nothing exactly when every
record scores 0; on the spec's example, "Grand Total" (score 11) beats
"Subtotal" (score 4, via the substring "total"), and a keyword-free
label scores 0. -/
theorem claim_c1 :
    (∀ l : List App.AmountRecord,
      (App.select_final_entry l = none ↔
        ∀ r ∈ l, App.priority_score r.label = 0) ∧
      (∀ b, App.select_final_entry l = some b → b ∈ l ∧
        0 < App.priority_score b.label ∧
        (∀ s ∈ l, App.priority_score s.label ≤ App.priority_score b.label) ∧
        l.find? (fun s => decide (App.priority_score s.label =
          App.priority_score b.label)) = some b)) ∧
    App.priority_score "Grand Total" = 11 ∧
    App.priority_score "Subtotal" = 4 ∧
    App.priority_score "City" = 0 ∧
    App.select_final_entry
      [⟨"Subtotal", "90.00", mkRat 9 10, "Layout Analysis", "Key-Value Pair"⟩,
       ⟨"Grand Total", "100.00", mkRat 9 10, "Layout Analysis", "Key-Value Pair"⟩] =
      some ⟨"Grand Total", "100.00", mkRat 9 10, "Layout Analysis",
        "Key-Value Pair"⟩ := by
  refine ⟨?_, by decide, by decide, by decide, by decide⟩
  intro l
  have h := selectGo_inv l none 0 []
    (fun _ => ⟨rfl, fun r hr => absurd hr (List.not_mem_nil r)⟩)
    (fun b hb => by cases hb)
  rw [List.nil_append] at h
  constructor
  · constructor
    · exact h.1
    · exact selectGo_all_zero l
  · exact h.2

theorem claim_c1_witness :
    (⟨"Grand Total", "100.00", mkRat 9 10, "Layout Analysis",
        "Key-Value Pair"⟩ : App.AmountRecord) ∈
      [(⟨"Subtotal", "90.00", mkRat 9 10, "Layout Analysis",
          "Key-Value Pair"⟩ : App.AmountRecord),
        ⟨"Grand Total", "100.00", mkRat 9 10, "Layout Analysis",
          "Key-Value Pair"⟩] ∧
    0 < App.priority_score "Grand Total" := by
  have h := (claim_c1.1
    [⟨"Subtotal", "90.00", mkRat 9 10, "Layout Analysis", "Key-Value Pair"⟩,
     ⟨"Grand Total", "100.00", mkRat 9 10, "Layout Analysis", "Key-Value Pair"⟩]).2
    ⟨"Grand Total", "100.00", mkRat 9 10, "Layout Analysis", "Key-Value Pair"⟩
    (by decide)
  exact ⟨h.1, h.2.1⟩

/-! ## Cell grid normalization -/

theorem foldl_max_le (l : List Nat) : ∀ (a : Nat), a ≤ l.foldl max a ∧
    ∀ x ∈ l, x ≤ l.foldl max a := by
  induction l with
  | nil => intro a; exact ⟨le_refl a, fun x hx => absurd hx (List.not_mem_nil x)⟩
  | cons y ys ih =>
    intro a
    rw [List.foldl_cons]
    obtain ⟨h1, h2⟩ := ih (max a y)
    refine ⟨le_trans (le_max_left a y) h1, ?_⟩
    intro x hx
    rcases List.mem_cons.mp hx with rfl | hx'
    · exact le_trans (le_max_right a x) h1
    · exact h2 x hx'

theorem writeCell_length (g : List (List String)) (c : TableExtractor.Cell) :
    (TableExtractor.writeCell g c).length = g.length := by
  rw [TableExtractor.writeCell, List.length_set]

theorem foldl_writeCell_length (cs : List TableExtractor.Cell) :
    ∀ g, (cs.foldl TableExtractor.writeCell g).length = g.length := by
  induction cs with
  | nil => intro g; rfl
  | cons c cs ih =>
    intro g
    rw [List.foldl_cons, ih, writeCell_length]

theorem writeCell_rows (g : List (List String)) (c : TableExtractor.Cell)
    (w : Nat) (hw : ∀ row ∈ g, row.length = w) :
    ∀ row ∈ TableExtractor.writeCell g c, row.length = w := by
  intro row hrow
  by_cases hr : c.row_index < g.length
  · rw [TableExtractor.writeCell] at hrow
    rcases List.mem_or_eq_of_mem_set hrow with h | h
    · exact hw row h
    · rw [h, List.length_set]
      have hmem : g.getD c.row_index [] ∈ g := by
        rw [List.getD_eq_getElem g [] hr]
        exact List.getElem_mem hr
      exact hw _ hmem
  · rw [TableExtractor.writeCell,
      List.set_eq_of_length_le (by omega)] at hrow
    exact hw row hrow

theorem foldl_writeCell_rows (cs : List TableExtractor.Cell) :
    ∀ g w, (∀ row ∈ g, row.length = w) →
      ∀ row ∈ cs.foldl TableExtractor.writeCell g, row.length = w := by
  induction cs with
  | nil => intro g w hw; exact hw
  | cons c cs ih =>
    intro g w hw
    rw [List.foldl_cons]
    exact ih _ w (writeCell_rows g c w hw)

theorem cellAt_writeCell_ne (g : List (List String)) (c : TableExtractor.Cell)
    (r cc : Nat) (h : ¬ (c.row_index = r ∧ c.column_index = cc)) :
    TableExtractor.cellAt (TableExtractor.writeCell g c) r cc =
      TableExtractor.cellAt g r cc := by
  simp only [TableExtractor.cellAt, List.getD_eq_getElem?_getD]
  by_cases hr : c.row_index = r
  · have hcc : c.column_index ≠ cc := fun hc => h ⟨hr, hc⟩
    subst hr
    by_cases hlen : c.row_index < g.length
    · have hrow : (TableExtractor.writeCell g c)[c.row_index]? =
          some ((g.getD c.row_index []).set c.column_index (pyStrip c.content)) := by
        unfold TableExtractor.writeCell
        rw [List.getElem?_set, if_pos rfl, if_pos hlen]
      rw [hrow, Option.getD_some, List.getElem?_set, if_neg hcc,
        List.getD_eq_getElem?_getD]
    · have heq : TableExtractor.writeCell g c = g := by
        unfold TableExtractor.writeCell
        exact List.set_eq_of_length_le (by omega)
      rw [heq]
  · have hrow : (TableExtractor.writeCell g c)[r]? = g[r]? := by
      unfold TableExtractor.writeCell
      rw [List.getElem?_set, if_neg hr]
    rw [hrow]

theorem cellAt_writeCell_eq (g : List (List String)) (c : TableExtractor.Cell)
    (hlen : c.row_index < g.length)
    (hcol : c.column_index < (g.getD c.row_index []).length) :
    TableExtractor.cellAt (TableExtractor.writeCell g c)
      c.row_index c.column_index = pyStrip c.content := by
  simp only [TableExtractor.cellAt, List.getD_eq_getElem?_getD]
  have hrow : (TableExtractor.writeCell g c)[c.row_index]? =
      some ((g.getD c.row_index []).set c.column_index (pyStrip c.content)) := by
    unfold TableExtractor.writeCell
    rw [List.getElem?_set, if_pos rfl, if_pos hlen]
  rw [hrow, Option.getD_some, List.getElem?_set, if_pos rfl, if_pos hcol,
    Option.getD_some]

theorem cellAt_foldl_not_declared (cs : List TableExtractor.Cell) :
    ∀ (g : List (List String)) (r cc : Nat),
      (∀ c ∈ cs, ¬ (c.row_index = r ∧ c.column_index = cc)) →
      TableExtractor.cellAt (cs.foldl TableExtractor.writeCell g) r cc =
        TableExtractor.cellAt g r cc := by
  induction cs with
  | nil => intro g r cc _; rfl
  | cons c cs ih =>
    intro g r cc hnd
    rw [List.foldl_cons, ih (TableExtractor.writeCell g c) r cc
      (fun x hx => hnd x (List.mem_cons_of_mem c hx)),
      cellAt_writeCell_ne g c r cc (hnd c (List.mem_cons_self c cs))]

theorem cellAt_foldl_declared (cs : List TableExtractor.Cell) :
    ∀ (g : List (List String)) (w : Nat) (c : TableExtractor.Cell),
      c ∈ cs →
      (cs.map (fun x => (x.row_index, x.column_index))).Nodup →
      (∀ row ∈ g, row.length = w) →
      c.row_index < g.length → c.column_index < w →
      TableExtractor.cellAt (cs.foldl TableExtractor.writeCell g)
        c.row_index c.column_index = pyStrip c.content := by
  induction cs with
  | nil => intro g w c hc; cases hc
  | cons c0 cs ih =>
    intro g w c hc hnd hrows hr hcol
    rw [List.map_cons, List.nodup_cons] at hnd
    rcases List.mem_cons.mp hc with rfl | hc'
    · rw [List.foldl_cons]
      have hnone : ∀ x ∈ cs, ¬ (x.row_index = c.row_index ∧
          x.column_index = c.column_index) := by
        intro x hx hxe
        apply hnd.1
        rw [← hxe.1, ← hxe.2]
        exact List.mem_map_of_mem _ hx
      rw [cellAt_foldl_not_declared cs (TableExtractor.writeCell g c)
        c.row_index c.column_index hnone]
      have hglen : (g.getD c.row_index []).length = w := by
        have hmem : g.getD c.row_index [] ∈ g := by
          rw [List.getD_eq_getElem g [] hr]
          exact List.getElem_mem hr
        exact hrows _ hmem
      exact cellAt_writeCell_eq g c hr (hglen ▸ hcol)
    · rw [List.foldl_cons]
      refine ih (TableExtractor.writeCell g c0) w c hc' hnd.2
        (writeCell_rows g c0 w hrows) ?_ hcol
      rw [writeCell_length]
      exact hr

/-- C5: for a non-empty cell set with pairwise distinct coordinates, the
grid built by `extract_tables_from_document` has exactly
`max_row × max_col` positions, holds each cell's stripped content at its
coordinates, and holds the empty string everywhere else. -/
theorem claim_c5 (cells : List TableExtractor.Cell) (hne : cells ≠ [])
    (hnd : (cells.map (fun c => (c.row_index, c.column_index))).Nodup) :
    (TableExtractor.table_grid cells).length = TableExtractor.max_row cells ∧
    (∀ row ∈ TableExtractor.table_grid cells,
      row.length = TableExtractor.max_col cells) ∧
    (∀ c ∈ cells, TableExtractor.cellAt (TableExtractor.table_grid cells)
      c.row_index c.column_index = pyStrip c.content) ∧
    (∀ r cc, (∀ c ∈ cells, ¬ (c.row_index = r ∧ c.column_index = cc)) →
      TableExtractor.cellAt (TableExtractor.table_grid cells) r cc = "") := by
  unfold TableExtractor.table_grid
  refine ⟨?_, ?_, ?_, ?_⟩
  · rw [foldl_writeCell_length, List.length_replicate]
  · intro row hrow
    refine foldl_writeCell_rows cells _ _ ?_ row hrow
    intro row2 h2
    rw [List.eq_of_mem_replicate h2, List.length_replicate]
  · intro c hc
    refine cellAt_foldl_declared cells _ (TableExtractor.max_col cells) c hc hnd
      ?_ ?_ ?_
    · intro row2 h2
      rw [List.eq_of_mem_replicate h2, List.length_replicate]
    · rw [List.length_replicate]
      unfold TableExtractor.max_row
      have hb := (foldl_max_le (cells.map (·.row_index)) 0).2 c.row_index
        (List.mem_map_of_mem _ hc)
      omega
    · unfold TableExtractor.max_col
      have hb := (foldl_max_le (cells.map (·.column_index)) 0).2 c.column_index
        (List.mem_map_of_mem _ hc)
      omega
  · intro r cc hnone
    rw [cellAt_foldl_not_declared cells _ r cc hnone]
    simp only [TableExtractor.cellAt, List.getD_eq_getElem?_getD]
    by_cases hr : r < TableExtractor.max_row cells
    · rw [List.getElem?_replicate, if_pos hr, Option.getD_some,
        List.getElem?_replicate]
      by_cases hcc : cc < TableExtractor.max_col cells
      · rw [if_pos hcc, Option.getD_some]
      · rw [if_neg hcc, Option.getD_none]
    · rw [List.getElem?_replicate, if_neg hr, Option.getD_none]
      rfl

theorem claim_c5_witness :
    ([(⟨0, 0, " a "⟩ : TableExtractor.Cell), ⟨1, 1, "b"⟩] ≠ []) ∧
    (TableExtractor.table_grid [⟨0, 0, " a "⟩, ⟨1, 1, "b"⟩]).length = 2 ∧
    TableExtractor.cellAt
      (TableExtractor.table_grid [⟨0, 0, " a "⟩, ⟨1, 1, "b"⟩]) 0 0 = "a" ∧
    TableExtractor.cellAt
      (TableExtractor.table_grid [⟨0, 0, " a "⟩, ⟨1, 1, "b"⟩]) 0 1 = "" := by
  have h := claim_c5 [⟨0, 0, " a "⟩, ⟨1, 1, "b"⟩] (by decide) (by decide)
  refine ⟨by decide, ?_, ?_, ?_⟩
  · rw [h.1]
    rfl
  · have h2 := h.2.2.1 ⟨0, 0, " a "⟩ (by decide)
    exact h2.trans (by decide)
  · exact h.2.2.2 0 1 (by decide)

